import Mathlib

/-!
# Verification of the ComfyUI_Toolkit_Plus node-replacement core and UI helpers

Shallow embedding of the JavaScript sources:
* `src/Web/JS/Panel_Prompt_Library.js` (node replacement flow: `typeCompatible`,
  `matchRequired`, `highestRequiredIndex`, `getValidReplacementsFromConnections`,
  `ensureIOCacheBuilt`, `normalizePos`, `replaceNode`, snapshot/reconnect helpers)
* `src/Web/JS/ComfyUI_Sidebar_Extension.js` (`labelKey`, `sortOneContainer`)
* the CivitAI library panel (`normalizeListWithAny`, `clamp`, `getPreviewSize`)

JavaScript strings become `String`; a value that may be `null`/`undefined`
becomes an `Option`; JavaScript numbers become a sum of NaN / ±Infinity /
a finite rational; host DOM or LiteGraph callbacks that the repository only
invokes (createNode, connect, localeCompare) become explicit parameters.
-/

namespace ToolkitPlus

open List

/-- JS falsy test for a nullable string: `!s` is true for `null`/`undefined`
and for the empty string. -/
def jsFalsyStr : Option String → Bool
  | none => true
  | some s => s = ""

/-- Embedding of `typeCompatible(requiredType, candidateType)` from
`Panel_Prompt_Library.js`: falsy required type always matches, falsy candidate
never matches a truthy required type, the wildcards `*` and `any` (after
lowercasing) match everything, otherwise case-insensitive equality. -/
def typeCompatible (requiredType candidateType : Option String) : Bool :=
  if jsFalsyStr requiredType then true
  else if jsFalsyStr candidateType then false
  else
    let A := (requiredType.getD "").toLower
    let B := (candidateType.getD "").toLower
    if A = "*" || A = "any" then true
    else if B = "*" || B = "any" then true
    else A = B

/-- `w` lowercases to one of the two wildcard spellings. -/
def isWildcard (w : String) : Prop := w.toLower = "*" ∨ w.toLower = "any"

instance (w : String) : Decidable (isWildcard w) := by
  unfold isWildcard; infer_instance

/-- JS number: NaN, the two infinities, or a finite value. -/
inductive JSNum
  | nan
  | posInf
  | negInf
  | fin (q : ℚ)
  deriving DecidableEq

/-- A JS value in the positions the code reads coordinates from:
`undefined`, `null`, or a number. -/
inductive JSVal
  | undefVal
  | null
  | num (n : JSNum)
  deriving DecidableEq

/-- An input slot of a node: `{type, link, name}` with nullable type and link. -/
structure InputSlot where
  type : Option String
  link : Option Nat
  name : String := ""
  deriving DecidableEq

/-- An output slot of a node: `{type, links, name}`; `links` is either absent
(not an array) or an array of link ids. -/
structure OutputSlot where
  type : Option String
  links : Option (List Nat)
  name : String := ""
  deriving DecidableEq

/-- The shapes `normalizePos` distinguishes: an array, a non-null object
(with possible `x`, `y`, `0`, `1` members), or anything else. -/
inductive PosVal
  | arr (a : List JSVal)
  | obj (x y idx0 idx1 : JSVal)
  | nonObj
  deriving DecidableEq

/-- A graph node as the replacement code reads it. -/
structure Node where
  id : Nat
  type : String
  inputs : List InputSlot
  outputs : List OutputSlot
  pos : PosVal := .nonObj
  size : Option (ℚ × ℚ) := none
  deriving DecidableEq

/-- A link record: `{origin_id, origin_slot, target_id, target_slot}`. -/
structure Link where
  origin_id : Nat
  origin_slot : Nat
  target_id : Nat
  target_slot : Nat
  deriving DecidableEq

/-- The live graph: `_nodes` plus the `links` table (id-keyed). -/
structure Graph where
  nodes : List Node
  links : List (Nat × Link)
  deriving DecidableEq

/-- `graph.getNodeById(id)`. -/
def Graph.getNodeById (g : Graph) (i : Nat) : Option Node :=
  g.nodes.find? (fun n => n.id = i)

/-- `graph.links[linkId]` (absent id gives `undefined`). -/
def Graph.getLink (g : Graph) (lid : Nat) : Option Link :=
  (g.links.find? (fun p => p.1 = lid)).map Prod.snd

/-- Cached IO signature of a node type: `{inTypes, outTypes}`. -/
structure Sig where
  inTypes : List (Option String)
  outTypes : List (Option String)
  deriving DecidableEq

/-- The `ioCache` map, keyed by type name (insertion order kept, keys unique
in any map actually built). -/
abbrev IOCache := List (String × Sig)

/-- The per-input required types of `getValidReplacementsFromConnections`:
for a connected input whose link resolves, the origin output's type falling
back to the slot's own type (`originOut?.type ?? inp?.type ?? null`); `none`
for unconnected slots, unresolvable links, and null required types alike
(the JS array holds `undefined` or `null` there, which every consumer treats
the same through `!= null`). -/
def requiredInputs (g : Graph) (oldNode : Node) : List (Option String) :=
  oldNode.inputs.map (fun inp =>
    match inp.link with
    | none => none
    | some linkId =>
      match g.getLink linkId with
      | none => none
      | some link =>
        let originOutType : Option String :=
          match g.getNodeById link.origin_id with
          | none => none
          | some origin =>
            match origin.outputs.get? link.origin_slot with
            | none => none
            | some out => out.type
        originOutType.orElse (fun _ => inp.type))

/-- The per-output required types: the slot's own type for outputs with a
non-empty `links` array, `none` otherwise. -/
def requiredOutputs (oldNode : Node) : List (Option String) :=
  oldNode.outputs.map (fun out =>
    match out.links with
    | some l => if l.length > 0 then out.type else none
    | none => none)

/-- Loop body of `highestRequiredIndex`: walk the array with index `i`,
overwriting the accumulator whenever the entry is non-null. -/
def highestRequiredIndexGo : Nat → Int → List (Option String) → Int
  | _, hi, [] => hi
  | i, hi, e :: rest =>
    highestRequiredIndexGo (i + 1) (if e.isSome then (i : Int) else hi) rest

/-- `highestRequiredIndex(arr)`: last index whose entry is non-null, `-1`
when there is none. -/
def highestRequiredIndex (arr : List (Option String)) : Int :=
  highestRequiredIndexGo 0 (-1) arr

/-- Loop body of `matchRequired`: check `typeCompatible` at every index with a
non-null requirement, reading the candidate array out of range as `undefined`. -/
def matchRequiredGo : Nat → List (Option String) → List (Option String) → Bool
  | _, [], _ => true
  | i, r :: rest, candidate =>
    match r with
    | none => matchRequiredGo (i + 1) rest candidate
    | some rv =>
      if typeCompatible (some rv) ((candidate.get? i).join) then
        matchRequiredGo (i + 1) rest candidate
      else false

/-- `matchRequired(required, candidate)`. -/
def matchRequired (required candidate : List (Option String)) : Bool :=
  matchRequiredGo 0 required candidate

/-- Body of the candidate loop of `getValidReplacementsFromConnections`:
the `continue` cascade rejecting a cache entry, `some typeName` when the
entry survives every check. -/
def replacementAccepted (oldType : String) (reqIn reqOut : List (Option String))
    (minInSlots minOutSlots : Int) (p : String × Sig) : Option String :=
  if p.1 = oldType then none
  else if (p.2.inTypes.length : Int) < minInSlots then none
  else if (p.2.outTypes.length : Int) < minOutSlots then none
  else if ¬ matchRequired reqIn p.2.inTypes then none
  else if ¬ matchRequired reqOut p.2.outTypes then none
  else some p.1

/-- `getValidReplacementsFromConnections(graph, oldNode)` against a cache
state (`none` models a null `ioCache`), parametrised by the host's
`localeCompare` (`lc a b` is the sign of `a.localeCompare(b)`); the loop
body over cache entries is `replacementAccepted`. -/
def getValidReplacementsFromConnections
    (lc : String → String → Ordering) (cacheOpt : Option IOCache)
    (g : Graph) (oldNode : Node) : List String :=
  match cacheOpt with
  | none => []
  | some cache =>
    let reqIn := requiredInputs g oldNode
    let reqOut := requiredOutputs oldNode
    let minInSlots := highestRequiredIndex reqIn + 1
    let minOutSlots := highestRequiredIndex reqOut + 1
    let results := cache.filterMap
      (replacementAccepted oldNode.type reqIn reqOut minInSlots minOutSlots)
    results.mergeSort (fun a b => (lc a b).isLE)

/-- Outcome of the host's `LiteGraph.createNode(typeName)`: it may throw, or
return a node or null. -/
inductive CreateOutcome
  | throws
  | returns (n : Option Node)
  deriving DecidableEq

/-- `safeCreateNode(typeName)`: catch everything, null result for a throw. -/
def safeCreateNode (create : String → CreateOutcome) (typeName : String) :
    Option Node :=
  match create typeName with
  | .throws => none
  | .returns n => n

/-- The module-level `TKP_STATE` guard object. -/
structure TKPState where
  isOpen : Bool := false
  ioCache : Option IOCache := none
  ioCacheBuilt : Bool := false
  deriving DecidableEq

/-- The cache-building loop of `ensureIOCacheBuilt`: over the registry's key
order, skip types whose creation fails, record each created node's input and
output slot types. -/
def buildIOCache (create : String → CreateOutcome) (keys : List String) : IOCache :=
  keys.filterMap (fun typeName =>
    match safeCreateNode create typeName with
    | none => none
    | some node => some (typeName,
        { inTypes := node.inputs.map (fun i => i.type),
          outTypes := node.outputs.map (fun o => o.type) }))

/-- `ensureIOCacheBuilt()`: a no-op once `ioCacheBuilt` is set and `ioCache`
is non-null; otherwise build the cache from the registry (`none` models a
missing `LiteGraph.registered_node_types`, giving an empty map) and set the
flag. -/
def ensureIOCacheBuilt (st : TKPState) (reg : Option (List String))
    (create : String → CreateOutcome) : TKPState :=
  if st.ioCacheBuilt ∧ st.ioCache.isSome then st
  else
    match reg with
    | none => { st with ioCache := some [], ioCacheBuilt := true }
    | some keys =>
      { st with ioCache := some (buildIOCache create keys), ioCacheBuilt := true }

/-- JS `==` null test. -/
def jsNullish : JSVal → Bool
  | .undefVal => true
  | .null => true
  | .num _ => false

/-- JS nullish coalescing on coordinate reads. -/
def jsCoalesce (a b : JSVal) : JSVal := if jsNullish a then b else a

/-- JS `Number(v)` on the values `normalizePos` can encounter. -/
def toNumber : JSVal → JSNum
  | .undefVal => .nan
  | .null => .fin 0
  | .num n => n

/-- JS `Number.isFinite`. -/
def isFiniteNum : JSNum → Bool
  | .fin _ => true
  | _ => false

/-- JS array indexing, `undefined` out of range. -/
def getIndex (a : List JSVal) (i : Nat) : JSVal := (a.get? i).getD .undefVal

/-- `normalizePos(pos)`: accept array `[x,y]` and object `(x ?? [0], y ?? [1])`
forms, convert with `Number`, and force any non-finite coordinate to 0. -/
def normalizePos (pos : PosVal) : ℚ × ℚ :=
  let xy : JSVal × JSVal :=
    match pos with
    | .arr a => (getIndex a 0, getIndex a 1)
    | .obj x y idx0 idx1 => (jsCoalesce x idx0, jsCoalesce y idx1)
    | .nonObj => (.num (.fin 0), .num (.fin 0))
  (match toNumber xy.1 with | .fin q => q | _ => 0,
   match toNumber xy.2 with | .fin q => q | _ => 0)

/-- A normalized position written back as the `[x, y]` array the code
assigns to `newNode.pos`. -/
def posToVal (p : ℚ × ℚ) : PosVal := .arr [.num (.fin p.1), .num (.fin p.2)]

/-- One snapshotted input link of the old node. -/
structure InSnap where
  origin_id : Nat
  origin_slot : Nat
  target_slot : Nat
  name : String
  deriving DecidableEq

/-- One snapshotted output link of the old node. -/
structure OutSnap where
  target_id : Nat
  target_slot : Nat
  origin_slot : Nat
  name : String
  deriving DecidableEq

/-- `snapshotInputs(graph, node)`: connected input slots whose link resolves,
with origin coordinates and the input index. -/
def snapshotInputs (g : Graph) (node : Node) : List InSnap :=
  node.inputs.enum.filterMap (fun p =>
    match p.2.link with
    | none => none
    | some lid =>
      match g.getLink lid with
      | none => none
      | some link =>
        some { origin_id := link.origin_id, origin_slot := link.origin_slot,
               target_slot := p.1, name := p.2.name })

/-- `snapshotOutputs(graph, node)`: for each output slot, every resolving
link id in its links array, with target coordinates and the output index. -/
def snapshotOutputs (g : Graph) (node : Node) : List OutSnap :=
  (node.outputs.enum.map (fun p =>
    (p.2.links.getD []).filterMap (fun lid =>
      match g.getLink lid with
      | none => none
      | some link =>
        some { target_id := link.target_id, target_slot := link.target_slot,
               origin_slot := p.1, name := p.2.name }))).flatten

/-- `graph.add(node)`. -/
def Graph.add (g : Graph) (n : Node) : Graph := { g with nodes := g.nodes ++ [n] }

/-- `graph.remove(node)`: drop that node (first occurrence, standing in for
reference identity). -/
def Graph.removeNode (g : Graph) (n : Node) : Graph :=
  { g with nodes := g.nodes.erase n }

/-- `reconnectInputs(graph, newNode, links)`: filter to links whose origin
still resolves and whose target slot is within the new node's inputs; each
survivor is one attempted `origin.connect(...)` call, whose outcome
(`connectFails`) is swallowed by the `try`/`catch`. -/
def reconnectInputs (g : Graph) (newNode : Node) (links : List InSnap)
    (connectFails : InSnap → Bool) : List InSnap :=
  links.filterMap (fun l =>
    match g.getNodeById l.origin_id with
    | none => none
    | some _ =>
      if l.target_slot < newNode.inputs.length then
        let _ := connectFails l
        some l
      else none)

/-- `reconnectOutputs(graph, newNode, links)`: filter to links whose target
still resolves and whose origin slot is within the new node's outputs. -/
def reconnectOutputs (g : Graph) (newNode : Node) (links : List OutSnap)
    (connectFails : OutSnap → Bool) : List OutSnap :=
  links.filterMap (fun l =>
    match g.getNodeById l.target_id with
    | none => none
    | some _ =>
      if l.origin_slot < newNode.outputs.length then
        let _ := connectFails l
        some l
      else none)

/-- Observable outcome of `replaceNode`: the final graph, the reconnection
attempts made, and the node left in place. -/
structure ReplaceResult where
  graph : Graph
  attemptedInputs : List InSnap
  attemptedOutputs : List OutSnap
  newNode : Option Node
  deriving DecidableEq

/-- `replaceNode(graph, oldNode, newType)`: silently stop when creation
fails; otherwise snapshot the old node's links, add the new node, carry over
the normalized position and (when both sides have one) the size, attempt
best-effort reconnections, and remove the old node unconditionally. -/
def replaceNode (g : Graph) (oldNode : Node) (newType : String)
    (create : String → CreateOutcome)
    (inFails : InSnap → Bool) (outFails : OutSnap → Bool) : ReplaceResult :=
  match safeCreateNode create newType with
  | none => { graph := g, attemptedInputs := [], attemptedOutputs := [],
              newNode := none }
  | some newNode0 =>
    let pos := normalizePos oldNode.pos
    let size := oldNode.size
    let inputLinks := snapshotInputs g oldNode
    let outputLinks := snapshotOutputs g oldNode
    let newNode1 : Node := { newNode0 with
      pos := posToVal (normalizePos (posToVal pos)),
      size := match size, newNode0.size with
              | some s, some _ => some s
              | _, ns => ns }
    let g1 := g.add newNode1
    let attemptedIn := reconnectInputs g1 newNode1 inputLinks inFails
    let attemptedOut := reconnectOutputs g1 newNode1 outputLinks outFails
    { graph := g1.removeNode oldNode,
      attemptedInputs := attemptedIn,
      attemptedOutputs := attemptedOut,
      newNode := some newNode1 }

/-- Concrete stand-in for the host's `localeCompare` in witnesses and
counterexamples: codepoint order on strings. -/
def stringCmp (a b : String) : Ordering :=
  if a < b then Ordering.lt else if b < a then Ordering.gt else Ordering.eq

/-- JS whitespace test (`\s`). -/
def isJsSpace (c : Char) : Bool := c.isWhitespace

/-- `String.prototype.trim` on the underlying character list: drop
whitespace from both ends. -/
def trimList (l : List Char) : List Char :=
  ((l.dropWhile isJsSpace).reverse.dropWhile isJsSpace).reverse

/-- JS `s.trim()`. -/
def jsTrim (s : String) : String := ⟨trimList s.data⟩

/-- The `name` member of a non-string array element, as `||` and the later
`.trim()` see it: a string, some other truthy value (a number, object, …,
on which `.trim()` throws), or a falsy/absent value (`undefined`, `null`,
`0`, `NaN`, `false`), which `||` passes over. -/
inductive JSProp
  | str (s : String)
  | truthyOther
  | falsyOther
  deriving DecidableEq

/-- A value in the array handed to `normalizeListWithAny`: either a string,
or anything else — carrying its `name` member and its `String(v)`
rendering. -/
inductive LVal
  | str (s : String)
  | obj (name : JSProp) (render : String)
  deriving DecidableEq

/-- `typeof v === "string" ? v : v?.name || String(v)`, combined with the
next line's `(val || "")`: `none` records that `val` ended up a truthy
non-string, on which the following `.trim()` throws a `TypeError`;
otherwise the string `val || ""` handed to `.trim()`. -/
def lvalToString : LVal → Option String
  | .str s => some s
  | .obj nm render =>
    match nm with
    | .str s => some (if s = "" then render else s)
    | .falsyOther => some render
    | .truthyOther => none

/-- The argument of `normalizeListWithAny`: an array, or anything else. -/
inductive NLInput
  | arr (l : List LVal)
  | notArr
  deriving DecidableEq

/-- `Array.isArray(values) ? values : []`. -/
def nlSrc : NLInput → List LVal
  | .arr l => l
  | .notArr => []

/-- One iteration of the `normalizeListWithAny` loop over the pair
`(out, seen)`: stringify — propagating the `TypeError` that `.trim()`
raises on a truthy non-string `name` — then trim, skip empties and
already-seen values, otherwise push onto both. -/
def nlStep (acc : List String × List String) (v : LVal) :
    Except Unit (List String × List String) :=
  match lvalToString v with
  | none => .error ()
  | some val =>
    let s := jsTrim val
    if s = "" then .ok acc
    else if s ∈ acc.2 then .ok acc
    else .ok (acc.1 ++ [s], s :: acc.2)

/-- The successful case of `nlStep` as a pure step, for reasoning about
runs that do not throw. -/
def nlStepP (acc : List String × List String) (v : LVal) :
    List String × List String :=
  let s := jsTrim ((lvalToString v).getD "")
  if s = "" then acc
  else if s ∈ acc.2 then acc
  else (acc.1 ++ [s], s :: acc.2)

/-- `normalizeListWithAny(values)` from the CivitAI library panel: a
non-array becomes `[]`; the output starts with `"Any"` (already marked
seen), then keeps each new non-empty trimmed stringification once;
`Except.error` models the `TypeError` escaping the function. -/
def normalizeListWithAny (values : NLInput) : Except Unit (List String) :=
  ((nlSrc values).foldlM nlStep (["Any"], ["Any"])).map Prod.fst

/-- `clamp(n, a, b) = Math.max(a, Math.min(b, n))`. -/
def clamp (n a b : Int) : Int := max a (min b n)

/-- Value of a digit run, radix 10. -/
def digitsNat (l : List Char) : Nat :=
  l.foldl (fun acc c => acc * 10 + (c.toNat - 48)) 0

/-- Optional sign at the head of `parseInt`'s input. -/
def splitSign : List Char → Int × List Char
  | '-' :: r => (-1, r)
  | '+' :: r => (1, r)
  | r => (1, r)

/-- JS `parseInt(s, 10)`: skip leading whitespace, take an optional sign and
then the longest digit prefix; NaN (`none`) when that prefix is empty. -/
def parseIntJS (s : String) : Option Int :=
  let rest := splitSign (s.data.dropWhile isJsSpace)
  let digits := rest.2.takeWhile Char.isDigit
  if digits = [] then none
  else some (rest.1 * (digitsNat digits : Int))

/-- `getPreviewSize()` with the localStorage read made explicit (`none`
models a missing key): `parseInt(raw || "256", 10)`, 256 on NaN, otherwise
clamped to `[128, 2048]`. -/
def getPreviewSize (raw : Option String) : Int :=
  match parseIntJS (match raw with
    | none => "256"
    | some r => if r = "" then "256" else r) with
  | none => 256
  | some n => clamp n 128 2048

/-- One pass of `normText`'s `replace` of whitespace runs by single spaces,
tracking whether the previous character was part of a run. -/
def collapseWSGo : Bool → List Char → List Char
  | _, [] => []
  | prevSpace, c :: rest =>
    if isJsSpace c then
      if prevSpace then collapseWSGo true rest
      else ' ' :: collapseWSGo true rest
    else c :: collapseWSGo false rest

/-- `normText(s)`: collapse whitespace runs to single spaces, then trim. -/
def normText (s : String) : String := ⟨trimList (collapseWSGo false s.data)⟩

/-- `labelKey(s)`: normalized then lowercased label (`toLocaleLowerCase`
modeled as `toLower`). -/
def labelKey (s : String) : String := (normText s).toLower

/-- A sortable tab item: DOM identity plus the label `getTabLabel` reads
off it. -/
structure TabItem where
  eid : Nat
  raw : String
  deriving DecidableEq

/-- An entry of the sidebar sort: `{el, idx, label}`. -/
structure SortEntry where
  el : TabItem
  idx : Nat
  label : String
  deriving DecidableEq

/-- The entry built for the item at original index `p.1`. -/
def entryOf (p : Nat × TabItem) : SortEntry :=
  { el := p.2, idx := p.1, label := labelKey p.2.raw }

/-- The sort comparator of `sortOneContainer` — label locale-compare with
ties broken by original index (`cmp !== 0 ? cmp : a.idx - b.idx`) — as the
Boolean `≤ 0` test merge sort consumes. -/
def entryLE (lcmp : String → String → Ordering) (a b : SortEntry) : Bool :=
  match lcmp a.label b.label with
  | .lt => true
  | .gt => false
  | .eq => a.idx ≤ b.idx

/-- `sortOneContainer(container)` on the container's sortable items, with
the `containerSig` entry made explicit: returns the boolean result, the
resulting item order, and the new signature entry; `lcmp` is the host's
`localeCompare(_, undefined, numeric/base)`. -/
def sortOneContainer (lcmp : String → String → Ordering)
    (lastSig : Option String) (items : List TabItem) :
    Bool × List TabItem × Option String :=
  if items.length < 2 then (false, items, lastSig)
  else
    let labels := items.map (fun n => labelKey n.raw)
    let sigNow := String.intercalate "|" labels
    if lastSig = some sigNow then (false, items, lastSig)
    else
      let entries := items.enum.map entryOf
      let sorted := entries.mergeSort (entryLE lcmp)
      let changed := (sorted.zip items).any (fun q => q.1.el != q.2)
      if ¬ changed then (false, items, some sigNow)
      else
        let sigAfter := String.intercalate "|" (sorted.map (fun e => e.label))
        (true, sorted.map (fun e => e.el), some sigAfter)

/-- Stated from the claim's words, to be compared with the source's
`highestRequiredIndex`-based gate: one plus the highest input-slot index of
the selected node that is connected (carries a link id resolving in the
graph's link table); `0` when no input slot is connected. -/
def specMinInputSlots (g : Graph) (oldNode : Node) : Nat :=
  ((List.range oldNode.inputs.length).filter (fun i =>
    match (oldNode.inputs.get? i).bind InputSlot.link with
    | none => false
    | some lid => (g.getLink lid).isSome)).foldr (fun i acc => max (i + 1) acc) 0

/-- Counterexample fixture: a node whose only input slot is connected through
link 0, but where both the origin output's type and the slot's own type are
null. -/
def cexOldNode : Node :=
  { id := 1, type := "A",
    inputs := [{ type := none, link := some 0 }], outputs := [] }

/-- Counterexample fixture: the origin node feeding `cexOldNode`. -/
def cexOrigin : Node :=
  { id := 2, type := "Origin", inputs := [],
    outputs := [{ type := none, links := some [0] }] }

/-- Counterexample fixture: the graph holding both nodes and the live link. -/
def cexGraph : Graph :=
  { nodes := [cexOldNode, cexOrigin],
    links := [(0, { origin_id := 2, origin_slot := 0, target_id := 1, target_slot := 0 })] }

/-- Counterexample fixture: a candidate signature with no slots at all. -/
def cexSigB : Sig := { inTypes := [], outTypes := [] }

/-- Counterexample fixture: the cache holding only that candidate. -/
def cexCache : IOCache := [("B", cexSigB)]

/-- Replacement-flow fixture: the node being swapped out, one wired input. -/
def wrOld : Node :=
  { id := 1, type := "A",
    inputs := [{ type := some "X", link := some 5 }], outputs := [] }

/-- Replacement-flow fixture: the origin node feeding `wrOld`. -/
def wrOrigin : Node :=
  { id := 2, type := "O", inputs := [],
    outputs := [{ type := some "X", links := some [5] }] }

/-- Replacement-flow fixture: graph holding both nodes and their link. -/
def wrGraph : Graph :=
  { nodes := [wrOld, wrOrigin],
    links := [(5, { origin_id := 2, origin_slot := 0, target_id := 1, target_slot := 0 })] }

/-- Replacement-flow fixture: the freshly created replacement node. -/
def wrNew0 : Node :=
  { id := 9, type := "B",
    inputs := [{ type := some "X", link := none }], outputs := [],
    pos := .arr [.num .nan, .num .nan], size := none }

/-- Replacement-flow fixture: a createNode that always yields `wrNew0`. -/
def wrCreate : String → CreateOutcome := fun _ => .returns (some wrNew0)

/-- C8: `typeCompatible` is symmetric on non-empty strings; wildcards `*`/`any`
(case-insensitively) are compatible with every non-empty type; two non-wildcard
non-empty types are compatible iff equal ignoring case; a falsy required type
is always compatible and a falsy candidate is incompatible with any truthy
required type. -/
theorem typeCompatible_spec :
    (∀ a b : String, a ≠ "" → b ≠ "" →
      typeCompatible (some a) (some b) = typeCompatible (some b) (some a)) ∧
    (∀ w a : String, w ≠ "" → a ≠ "" → isWildcard w →
      typeCompatible (some w) (some a) = true ∧
      typeCompatible (some a) (some w) = true) ∧
    (∀ a b : String, a ≠ "" → b ≠ "" → ¬ isWildcard a → ¬ isWildcard b →
      (typeCompatible (some a) (some b) = true ↔ a.toLower = b.toLower)) ∧
    (∀ b : Option String,
      typeCompatible none b = true ∧ typeCompatible (some "") b = true) ∧
    (∀ a : String, a ≠ "" →
      typeCompatible (some a) none = false ∧
      typeCompatible (some a) (some "") = false) := by
  refine ⟨?_, ?_, ?_, ?_, ?_⟩
  · intro a b ha hb
    simp only [typeCompatible, jsFalsyStr, isWildcard, Option.getD]
    by_cases h1 : a.toLower = "*" <;> by_cases h2 : a.toLower = "any" <;>
      by_cases h3 : b.toLower = "*" <;> by_cases h4 : b.toLower = "any" <;>
      simp [ha, hb, h1, h2, h3, h4, decide_eq_true_eq, eq_comm]
  · intro w a hw ha hwild
    rcases hwild with h | h <;>
      simp [typeCompatible, jsFalsyStr, Option.getD, hw, ha, h]
  · intro a b ha hb hwa hwb
    have h1 : a.toLower ≠ "*" := fun h => hwa (Or.inl h)
    have h2 : a.toLower ≠ "any" := fun h => hwa (Or.inr h)
    have h3 : b.toLower ≠ "*" := fun h => hwb (Or.inl h)
    have h4 : b.toLower ≠ "any" := fun h => hwb (Or.inr h)
    simp [typeCompatible, jsFalsyStr, Option.getD, ha, hb, h1, h2, h3, h4]
  · intro b
    constructor <;> simp [typeCompatible, jsFalsyStr]
  · intro a ha
    constructor <;> simp [typeCompatible, jsFalsyStr, ha]

/-- Witness for C8 at concrete inputs. -/
theorem typeCompatible_spec_witness :
    typeCompatible (some "FLOAT") (some "float") =
      typeCompatible (some "float") (some "FLOAT") :=
  typeCompatible_spec.1 "FLOAT" "float" (by decide) (by decide)

theorem highestRequiredIndexGo_le_iff :
    ∀ (arr : List (Option String)) (i : Nat) (hi m : Int), hi < i →
      (highestRequiredIndexGo i hi arr ≤ m ↔
        hi ≤ m ∧ ∀ j s, arr.get? j = some (some s) → (i : Int) + j ≤ m)
  | [], i, hi, m, h => by simp [highestRequiredIndexGo]
  | none :: rest, i, hi, m, h => by
    rw [show highestRequiredIndexGo i hi (none :: rest)
        = highestRequiredIndexGo (i + 1) hi rest from rfl]
    rw [highestRequiredIndexGo_le_iff rest (i + 1) hi m (by omega)]
    constructor
    · rintro ⟨h1, h2⟩
      refine ⟨h1, fun j s hj => ?_⟩
      cases j with
      | zero => simp at hj
      | succ j =>
        have := h2 j s (by simpa using hj)
        push_cast at this ⊢
        omega
    · rintro ⟨h1, h2⟩
      refine ⟨h1, fun j s hj => ?_⟩
      have := h2 (j + 1) s (by simpa using hj)
      push_cast at this ⊢
      omega
  | some sv :: rest, i, hi, m, h => by
    rw [show highestRequiredIndexGo i hi (some sv :: rest)
        = highestRequiredIndexGo (i + 1) (i : Int) rest from rfl]
    rw [highestRequiredIndexGo_le_iff rest (i + 1) (i : Int) m (by omega)]
    constructor
    · rintro ⟨h1, h2⟩
      refine ⟨by omega, fun j s hj => ?_⟩
      cases j with
      | zero => push_cast; omega
      | succ j =>
        have := h2 j s (by simpa using hj)
        push_cast at this ⊢
        omega
    · rintro ⟨h1, h2⟩
      refine ⟨?_, fun j s hj => ?_⟩
      · have := h2 0 sv (by simp)
        push_cast at this
        omega
      · have := h2 (j + 1) s (by simpa using hj)
        push_cast at this ⊢
        omega

/-- The slot-count gate of the search, characterised: a candidate has enough
slots iff every index carrying a non-null required type is within range. -/
theorem highestRequiredIndex_add_one_le_iff (arr : List (Option String)) (n : Nat) :
    highestRequiredIndex arr + 1 ≤ (n : Int) ↔
      ∀ j s, arr.get? j = some (some s) → j < n := by
  unfold highestRequiredIndex
  rw [show (highestRequiredIndexGo 0 (-1) arr + 1 ≤ (n : Int)) ↔
      (highestRequiredIndexGo 0 (-1) arr ≤ (n : Int) - 1) from by omega]
  rw [highestRequiredIndexGo_le_iff arr 0 (-1) ((n : Int) - 1) (by omega)]
  constructor
  · rintro ⟨-, h2⟩ j s hj
    have := h2 j s hj
    omega
  · intro h
    refine ⟨by omega, fun j s hj => ?_⟩
    have := h j s hj
    omega

theorem matchRequiredGo_eq_true_iff :
    ∀ (required : List (Option String)) (i : Nat) (candidate : List (Option String)),
      (matchRequiredGo i required candidate = true ↔
        ∀ j s, required.get? j = some (some s) →
          typeCompatible (some s) ((candidate.get? (i + j)).join) = true)
  | [], i, cand => by simp [matchRequiredGo]
  | none :: rest, i, cand => by
    rw [show matchRequiredGo i (none :: rest) cand
        = matchRequiredGo (i + 1) rest cand from rfl]
    rw [matchRequiredGo_eq_true_iff rest (i + 1) cand]
    constructor
    · intro h j s hj
      cases j with
      | zero => simp at hj
      | succ j =>
        have := h j s (by simpa using hj)
        have e : i + 1 + j = i + (j + 1) := by omega
        rwa [e] at this
    · intro h j s hj
      have := h (j + 1) s (by simpa using hj)
      have e : i + 1 + j = i + (j + 1) := by omega
      rwa [← e] at this
  | some rv :: rest, i, cand => by
    rw [show matchRequiredGo i (some rv :: rest) cand
        = (if typeCompatible (some rv) ((cand.get? i).join) then
            matchRequiredGo (i + 1) rest cand else false) from rfl]
    by_cases hc : typeCompatible (some rv) ((cand.get? i).join) = true
    · rw [if_pos hc, matchRequiredGo_eq_true_iff rest (i + 1) cand]
      constructor
      · intro h j s hj
        cases j with
        | zero =>
          have : rv = s := by simpa using hj
          subst this
          simpa using hc
        | succ j =>
          have := h j s (by simpa using hj)
          have e : i + 1 + j = i + (j + 1) := by omega
          rwa [e] at this
      · intro h j s hj
        have := h (j + 1) s (by simpa using hj)
        have e : i + 1 + j = i + (j + 1) := by omega
        rwa [← e] at this
    · rw [if_neg hc]
      constructor
      · intro habs
        exact absurd habs (by simp)
      · intro h
        exact absurd (by simpa using h 0 rv (by simp)) hc

/-- `matchRequired`, characterised index-wise. -/
theorem matchRequired_eq_true_iff (required candidate : List (Option String)) :
    matchRequired required candidate = true ↔
      ∀ j s, required.get? j = some (some s) →
        typeCompatible (some s) ((candidate.get? j).join) = true := by
  unfold matchRequired
  rw [matchRequiredGo_eq_true_iff required 0 candidate]
  constructor <;> intro h j s hj <;> simpa using h j s hj

/-- The candidate filter, characterised. -/
theorem replacementAccepted_eq_some_iff
    (oldType : String) (reqIn reqOut : List (Option String))
    (minInSlots minOutSlots : Int) (p : String × Sig) (t : String) :
    replacementAccepted oldType reqIn reqOut minInSlots minOutSlots p = some t ↔
      p.1 = t ∧ p.1 ≠ oldType ∧
      minInSlots ≤ (p.2.inTypes.length : Int) ∧
      minOutSlots ≤ (p.2.outTypes.length : Int) ∧
      matchRequired reqIn p.2.inTypes = true ∧
      matchRequired reqOut p.2.outTypes = true := by
  unfold replacementAccepted
  split_ifs with h1 h2 h3 h4 h5 <;> simp_all

theorem filterMap_replacementAccepted_nodup
    (oldType : String) (reqIn reqOut : List (Option String)) (minIn minOut : Int)
    (cache : IOCache) (h : (cache.map Prod.fst).Nodup) :
    (cache.filterMap (replacementAccepted oldType reqIn reqOut minIn minOut)).Nodup := by
  induction cache with
  | nil => simp
  | cons p rest ih =>
    simp only [List.map_cons, List.nodup_cons] at h
    obtain ⟨hp, hrest⟩ := h
    rw [List.filterMap_cons]
    cases hacc : replacementAccepted oldType reqIn reqOut minIn minOut p with
    | none => exact ih hrest
    | some t =>
      rw [List.nodup_cons]
      refine ⟨?_, ih hrest⟩
      intro ht
      rw [List.mem_filterMap] at ht
      obtain ⟨q, hq, hq2⟩ := ht
      have h1 : q.1 = t := ((replacementAccepted_eq_some_iff _ _ _ _ _ _ _).1 hq2).1
      have h2 : p.1 = t := ((replacementAccepted_eq_some_iff _ _ _ _ _ _ _).1 hacc).1
      apply hp
      rw [h2, ← h1]
      exact List.mem_map_of_mem Prod.fst hq

/-- Membership in the replacement search result, characterised slot-wise:
a type is returned iff it sits in the cache under a different name than the
selected node's type, every input index carrying a non-null required type is
within the candidate's input count and compatible there, and likewise for
outputs. -/
theorem mem_getValidReplacements_iff
    (lc : String → String → Ordering) (cache : IOCache)
    (g : Graph) (oldNode : Node) (t : String) :
    t ∈ getValidReplacementsFromConnections lc (some cache) g oldNode ↔
      ∃ sig, (t, sig) ∈ cache ∧ t ≠ oldNode.type ∧
        (∀ i s, (requiredInputs g oldNode).get? i = some (some s) →
          i < sig.inTypes.length ∧
          typeCompatible (some s) ((sig.inTypes.get? i).join) = true) ∧
        (∀ j s, (requiredOutputs oldNode).get? j = some (some s) →
          j < sig.outTypes.length ∧
          typeCompatible (some s) ((sig.outTypes.get? j).join) = true) := by
  simp only [getValidReplacementsFromConnections]
  rw [List.mem_mergeSort, List.mem_filterMap]
  constructor
  · rintro ⟨p, hp, hacc⟩
    rw [replacementAccepted_eq_some_iff] at hacc
    obtain ⟨hpt, hne, hin, hout, hmin, hmout⟩ := hacc
    obtain ⟨a, sig⟩ := p
    simp only at hpt hne hin hout hmin hmout
    subst hpt
    rw [highestRequiredIndex_add_one_le_iff] at hin hout
    rw [matchRequired_eq_true_iff] at hmin hmout
    exact ⟨sig, hp, hne,
      fun i s hs => ⟨hin i s hs, hmin i s hs⟩,
      fun j s hs => ⟨hout j s hs, hmout j s hs⟩⟩
  · rintro ⟨sig, hmem, hne, hins, houts⟩
    refine ⟨(t, sig), hmem, ?_⟩
    rw [replacementAccepted_eq_some_iff]
    refine ⟨rfl, hne, ?_, ?_, ?_, ?_⟩
    · rw [highestRequiredIndex_add_one_le_iff]
      exact fun j s hs => (hins j s hs).1
    · rw [highestRequiredIndex_add_one_le_iff]
      exact fun j s hs => (houts j s hs).1
    · rw [matchRequired_eq_true_iff]
      exact fun j s hs => (hins j s hs).2
    · rw [matchRequired_eq_true_iff]
      exact fun j s hs => (houts j s hs).2

theorem stringCmp_isLE (a b : String) : (stringCmp a b).isLE = true ↔ a ≤ b := by
  unfold stringCmp
  rcases lt_trichotomy a b with h | h | h
  · rw [if_pos h]
    simp [Ordering.isLE, le_of_lt h]
  · subst h
    rw [if_neg (lt_irrefl a), if_neg (lt_irrefl a)]
    simp [Ordering.isLE]
  · rw [if_neg (lt_asymm h), if_pos h]
    simp [Ordering.isLE, not_le.mpr h]

theorem stringCmp_isLE_trans (a b c : String) (h1 : (stringCmp a b).isLE = true)
    (h2 : (stringCmp b c).isLE = true) : (stringCmp a c).isLE = true := by
  rw [stringCmp_isLE] at h1 h2 ⊢
  exact le_trans h1 h2

theorem stringCmp_swap (a b : String) : stringCmp b a = (stringCmp a b).swap := by
  unfold stringCmp
  split_ifs with h1 h2 <;> first | rfl | exact absurd h2 (lt_asymm h1)

theorem stringCmp_congr (a b : String) (h : stringCmp a b = Ordering.eq) :
    ∀ d, stringCmp a d = stringCmp b d := by
  have hab : a = b := by
    unfold stringCmp at h
    split_ifs at h with h1 h2
    exact le_antisymm (not_lt.1 h2) (not_lt.1 h1)
  subst hab
  intro d
  rfl

theorem stringCmp_isLE_total (a b : String) :
    ((stringCmp a b).isLE || (stringCmp b a).isLE) = true := by
  rcases le_total a b with h | h
  · simp [(stringCmp_isLE a b).mpr h]
  · simp [(stringCmp_isLE b a).mpr h]

/-- C1 (amended): for a selected node with the IO cache built, the search
returns exactly the cache's type names other than the node's own type whose
signature accepts the node's current wiring — at every input slot index
carrying a non-null required type (the incoming link's origin output type,
falling back to the slot's own type) the candidate has an input slot there
whose type is `typeCompatible` with it, and at every output slot index whose
slot is connected with a non-null type the candidate has a compatible output
slot there — sorted ascending by the locale comparison, without duplicates
when the cache keys are unique. -/
theorem getValidReplacements_correct
    (lc : String → String → Ordering)
    (htrans : ∀ a b c : String,
      (lc a b).isLE = true → (lc b c).isLE = true → (lc a c).isLE = true)
    (htotal : ∀ a b : String, ((lc a b).isLE || (lc b a).isLE) = true)
    (cache : IOCache) (g : Graph) (oldNode : Node) :
    (∀ t, t ∈ getValidReplacementsFromConnections lc (some cache) g oldNode ↔
      ∃ sig, (t, sig) ∈ cache ∧ t ≠ oldNode.type ∧
        (∀ i s, (requiredInputs g oldNode).get? i = some (some s) →
          i < sig.inTypes.length ∧
          typeCompatible (some s) ((sig.inTypes.get? i).join) = true) ∧
        (∀ j s, (requiredOutputs oldNode).get? j = some (some s) →
          j < sig.outTypes.length ∧
          typeCompatible (some s) ((sig.outTypes.get? j).join) = true)) ∧
    (getValidReplacementsFromConnections lc (some cache) g oldNode).Pairwise
      (fun a b => (lc a b).isLE = true) ∧
    ((cache.map Prod.fst).Nodup →
      (getValidReplacementsFromConnections lc (some cache) g oldNode).Nodup) := by
  refine ⟨fun t => mem_getValidReplacements_iff lc cache g oldNode t, ?_, ?_⟩
  · simp only [getValidReplacementsFromConnections]
    exact List.sorted_mergeSort htrans htotal _
  · intro h
    simp only [getValidReplacementsFromConnections]
    exact ((List.mergeSort_perm _ _).nodup_iff).mpr
      (filterMap_replacementAccepted_nodup _ _ _ _ _ _ h)

/-- Witness for C1 at a concrete cache, graph and node. -/
theorem getValidReplacements_correct_witness :
    "LoadImage" ∈ getValidReplacementsFromConnections stringCmp
      (some [("LoadImage", { inTypes := [], outTypes := [some "IMAGE"] })])
      { nodes := [], links := [] }
      { id := 1, type := "A", inputs := [], outputs := [] } :=
  ((getValidReplacements_correct stringCmp stringCmp_isLE_trans stringCmp_isLE_total
      [("LoadImage", { inTypes := [], outTypes := [some "IMAGE"] })]
      { nodes := [], links := [] }
      { id := 1, type := "A", inputs := [], outputs := [] }).1 "LoadImage").mpr
    ⟨{ inTypes := [], outTypes := [some "IMAGE"] }, by decide, by decide,
     by intro i s h; simp [requiredInputs] at h,
     by intro j s h; simp [requiredOutputs] at h⟩

/-- C1, as stated, is false on the code: with the fixture graph, the selected
node's input slot 0 is connected (its link resolves to a live origin output),
so the claim demands every returned candidate have at least
`specMinInputSlots = 1` input slots; yet the search returns `"B"`, whose
cached signature has zero input slots, because a connected slot whose
required type collapses to null imposes no slot-count requirement. -/
theorem getValidReplacements_claim_counterexample :
    "B" ∈ getValidReplacementsFromConnections stringCmp (some cexCache) cexGraph cexOldNode ∧
    ("B", cexSigB) ∈ cexCache ∧
    specMinInputSlots cexGraph cexOldNode = 1 ∧
    cexSigB.inTypes.length = 0 := by
  refine ⟨?_, by decide, by decide, by decide⟩
  simp only [getValidReplacementsFromConnections]
  rw [List.mem_mergeSort]
  decide

/-- C5: a node none of whose input slots has a link and none of whose output
slots has a non-empty links array constrains nothing: the search returns
every cached type except the node's own. -/
theorem getValidReplacements_unconstrained
    (lc : String → String → Ordering) (cache : IOCache) (g : Graph) (oldNode : Node)
    (hin : ∀ inp ∈ oldNode.inputs, inp.link = none)
    (hout : ∀ out ∈ oldNode.outputs, out.links = none ∨ out.links = some []) :
    ∀ t, t ∈ getValidReplacementsFromConnections lc (some cache) g oldNode ↔
      ((∃ sig, (t, sig) ∈ cache) ∧ t ≠ oldNode.type) := by
  have hreq : ∀ i s, (requiredInputs g oldNode).get? i ≠ some (some s) := by
    intro i s h
    simp only [requiredInputs, List.get?_eq_getElem?, List.getElem?_map] at h
    cases hi : oldNode.inputs[i]? with
    | none => rw [hi] at h; simp at h
    | some inp =>
      rw [hi] at h
      have := hin inp (List.getElem?_mem hi)
      simp [this] at h
  have hreqo : ∀ j s, (requiredOutputs oldNode).get? j ≠ some (some s) := by
    intro j s h
    simp only [requiredOutputs, List.get?_eq_getElem?, List.getElem?_map] at h
    cases hj : oldNode.outputs[j]? with
    | none => rw [hj] at h; simp at h
    | some out =>
      rw [hj] at h
      rcases hout out (List.getElem?_mem hj) with ho | ho <;> simp [ho] at h
  intro t
  rw [mem_getValidReplacements_iff]
  constructor
  · rintro ⟨sig, hmem, hne, -, -⟩
    exact ⟨⟨sig, hmem⟩, hne⟩
  · rintro ⟨⟨sig, hmem⟩, hne⟩
    exact ⟨sig, hmem, hne,
      fun i s hs => absurd hs (hreq i s),
      fun j s hs => absurd hs (hreqo j s)⟩

/-- Witness for C5: an unwired node sees every other cached type. -/
theorem getValidReplacements_unconstrained_witness :
    "KSampler" ∈ getValidReplacementsFromConnections stringCmp
      (some [("KSampler", { inTypes := [some "MODEL"], outTypes := [some "LATENT"] })])
      { nodes := [], links := [] }
      { id := 3, type := "VAEDecode",
        inputs := [{ type := some "LATENT", link := none }],
        outputs := [{ type := some "IMAGE", links := some [] }] } :=
  ((getValidReplacements_unconstrained stringCmp
      [("KSampler", { inTypes := [some "MODEL"], outTypes := [some "LATENT"] })]
      { nodes := [], links := [] }
      { id := 3, type := "VAEDecode",
        inputs := [{ type := some "LATENT", link := none }],
        outputs := [{ type := some "IMAGE", links := some [] }] }
      (by decide) (by decide)) "KSampler").mpr
    ⟨⟨{ inTypes := [some "MODEL"], outTypes := [some "LATENT"] }, by decide⟩, by decide⟩

/-- C6: `ensureIOCacheBuilt` builds at most once: whatever a first call did,
any subsequent call returns the state unchanged — no signature entry is
recomputed, added or removed — even against a different registry or a
different `createNode`. -/
theorem ensureIOCacheBuilt_idempotent (st : TKPState)
    (reg1 reg2 : Option (List String)) (create1 create2 : String → CreateOutcome) :
    ensureIOCacheBuilt (ensureIOCacheBuilt st reg1 create1) reg2 create2 =
      ensureIOCacheBuilt st reg1 create1 := by
  by_cases hc : st.ioCacheBuilt ∧ st.ioCache.isSome
  · have e1 : ensureIOCacheBuilt st reg1 create1 = st := by
      unfold ensureIOCacheBuilt
      rw [if_pos hc]
    rw [e1]
    unfold ensureIOCacheBuilt
    rw [if_pos hc]
  · cases reg1 with
    | none =>
      have e1 : ensureIOCacheBuilt st none create1
          = { st with ioCache := some [], ioCacheBuilt := true } := by
        unfold ensureIOCacheBuilt
        rw [if_neg hc]
      rw [e1]
      unfold ensureIOCacheBuilt
      rw [if_pos ⟨rfl, rfl⟩]
    | some keys =>
      have e1 : ensureIOCacheBuilt st (some keys) create1
          = { st with ioCache := some (buildIOCache create1 keys),
                      ioCacheBuilt := true } := by
        unfold ensureIOCacheBuilt
        rw [if_neg hc]
      rw [e1]
      unfold ensureIOCacheBuilt
      rw [if_pos ⟨rfl, rfl⟩]

/-- C3: when the chosen type cannot be instantiated — `createNode` throws or
returns null — `replaceNode` is a silent no-op: the graph is returned
untouched (same nodes, same links), no reconnection is attempted, no node is
created. -/
theorem replaceNode_noop_on_create_failure
    (g : Graph) (oldNode : Node) (newType : String)
    (create : String → CreateOutcome)
    (inFails : InSnap → Bool) (outFails : OutSnap → Bool)
    (h : create newType = .throws ∨ create newType = .returns none) :
    replaceNode g oldNode newType create inFails outFails =
      { graph := g, attemptedInputs := [], attemptedOutputs := [],
        newNode := none } := by
  have hs : safeCreateNode create newType = none := by
    rcases h with h | h <;> simp [safeCreateNode, h]
  unfold replaceNode
  rw [hs]

/-- Witness for C3: a throwing createNode leaves the fixture graph alone. -/
theorem replaceNode_noop_on_create_failure_witness :
    replaceNode wrGraph wrOld "B" (fun _ => .throws)
      (fun _ => false) (fun _ => false) =
      { graph := wrGraph, attemptedInputs := [], attemptedOutputs := [],
        newNode := none } :=
  replaceNode_noop_on_create_failure wrGraph wrOld "B" (fun _ => .throws)
    (fun _ => false) (fun _ => false) (Or.inl rfl)

theorem mem_reconnectInputs_iff (g : Graph) (newNode : Node)
    (links : List InSnap) (cf : InSnap → Bool) (l : InSnap) :
    l ∈ reconnectInputs g newNode links cf ↔
      l ∈ links ∧ (g.getNodeById l.origin_id).isSome = true ∧
        l.target_slot < newNode.inputs.length := by
  unfold reconnectInputs
  rw [List.mem_filterMap]
  constructor
  · rintro ⟨l', hl', hf⟩
    cases hg : g.getNodeById l'.origin_id with
    | none => rw [hg] at hf; simp at hf
    | some n =>
      rw [hg] at hf
      split_ifs at hf with ht
      simp only [Option.some.injEq] at hf
      subst hf
      exact ⟨hl', by rw [hg]; rfl, ht⟩
  · rintro ⟨hl, hsome, ht⟩
    refine ⟨l, hl, ?_⟩
    cases hg : g.getNodeById l.origin_id with
    | none => rw [hg] at hsome; simp at hsome
    | some n => simp [ht]

theorem mem_reconnectOutputs_iff (g : Graph) (newNode : Node)
    (links : List OutSnap) (cf : OutSnap → Bool) (l : OutSnap) :
    l ∈ reconnectOutputs g newNode links cf ↔
      l ∈ links ∧ (g.getNodeById l.target_id).isSome = true ∧
        l.origin_slot < newNode.outputs.length := by
  unfold reconnectOutputs
  rw [List.mem_filterMap]
  constructor
  · rintro ⟨l', hl', hf⟩
    cases hg : g.getNodeById l'.target_id with
    | none => rw [hg] at hf; simp at hf
    | some n =>
      rw [hg] at hf
      split_ifs at hf with ht
      simp only [Option.some.injEq] at hf
      subst hf
      exact ⟨hl', by rw [hg]; rfl, ht⟩
  · rintro ⟨hl, hsome, ht⟩
    refine ⟨l, hl, ?_⟩
    cases hg : g.getNodeById l.target_id with
    | none => rw [hg] at hsome; simp at hsome
    | some n => simp [ht]

/-- C2: when the replacement node is created, every snapshotted input link
whose origin still resolves and whose target slot index fits the new node's
input count — and every snapshotted output link whose target still resolves
and whose origin slot index fits the new node's output count — is attempted
at the same slot indices; connect outcomes never change the result (the
`try`/`catch` swallows them), and the old node is removed from the graph
regardless, with the new node left in it. -/
theorem replaceNode_best_effort_relink
    (g : Graph) (oldNode : Node) (newType : String)
    (create : String → CreateOutcome)
    (inFails : InSnap → Bool) (outFails : OutSnap → Bool)
    (newNode0 : Node) (h : safeCreateNode create newType = some newNode0)
    (hnodup : g.nodes.Nodup)
    (hid : newNode0.id ≠ oldNode.id)
    (hfresh : newNode0.id ∉ g.nodes.map Node.id) :
    ∃ n1 : Node,
      (replaceNode g oldNode newType create inFails outFails).newNode = some n1 ∧
      n1.id = newNode0.id ∧ n1.inputs = newNode0.inputs ∧
      n1.outputs = newNode0.outputs ∧
      (∀ l, l ∈ (replaceNode g oldNode newType create inFails outFails).attemptedInputs ↔
        (l ∈ snapshotInputs g oldNode ∧
         ((g.add n1).getNodeById l.origin_id).isSome = true ∧
         l.target_slot < newNode0.inputs.length)) ∧
      (∀ l, l ∈ (replaceNode g oldNode newType create inFails outFails).attemptedOutputs ↔
        (l ∈ snapshotOutputs g oldNode ∧
         ((g.add n1).getNodeById l.target_id).isSome = true ∧
         l.origin_slot < newNode0.outputs.length)) ∧
      oldNode ∉ (replaceNode g oldNode newType create inFails outFails).graph.nodes ∧
      n1 ∈ (replaceNode g oldNode newType create inFails outFails).graph.nodes ∧
      (∀ (inFails' : InSnap → Bool) (outFails' : OutSnap → Bool),
        replaceNode g oldNode newType create inFails' outFails' =
          replaceNode g oldNode newType create inFails outFails) := by
  have e : replaceNode g oldNode newType create inFails outFails =
      (let newNode1 : Node := { newNode0 with
        pos := posToVal (normalizePos (posToVal (normalizePos oldNode.pos))),
        size := match oldNode.size, newNode0.size with
                | some s, some _ => some s
                | _, ns => ns }
      { graph := (g.add newNode1).removeNode oldNode,
        attemptedInputs :=
          reconnectInputs (g.add newNode1) newNode1 (snapshotInputs g oldNode) inFails,
        attemptedOutputs :=
          reconnectOutputs (g.add newNode1) newNode1 (snapshotOutputs g oldNode) outFails,
        newNode := some newNode1 }) := by
    unfold replaceNode
    rw [h]
  set n1 : Node := { newNode0 with
    pos := posToVal (normalizePos (posToVal (normalizePos oldNode.pos))),
    size := match oldNode.size, newNode0.size with
            | some s, some _ => some s
            | _, ns => ns } with hn1
  have hn1id : n1.id = newNode0.id := rfl
  have hn1in : n1.inputs = newNode0.inputs := rfl
  have hn1out : n1.outputs = newNode0.outputs := rfl
  have hne : n1 ≠ oldNode := fun hq => hid (hn1id ▸ congrArg Node.id hq)
  have hnotin : n1 ∉ g.nodes := fun hq => hfresh (hn1id ▸ List.mem_map_of_mem Node.id hq)
  have hN : (g.nodes ++ [n1]).Nodup := by
    rw [List.nodup_append]
    exact ⟨hnodup, List.nodup_singleton n1, by simpa using hnotin⟩
  refine ⟨n1, ?_, hn1id, hn1in, hn1out, ?_, ?_, ?_, ?_, ?_⟩
  · rw [e]
  · intro l
    rw [e]
    simp only []
    rw [mem_reconnectInputs_iff]
  · intro l
    rw [e]
    simp only []
    rw [mem_reconnectOutputs_iff]
  · rw [e]
    show oldNode ∉ (g.nodes ++ [n1]).erase oldNode
    intro hmem
    exact absurd ((List.Nodup.mem_erase_iff hN).1 hmem).1 (by simp)
  · rw [e]
    show n1 ∈ (g.nodes ++ [n1]).erase oldNode
    exact (List.Nodup.mem_erase_iff hN).2 ⟨hne, by simp⟩
  · intro inFails' outFails'
    rw [e]
    unfold replaceNode
    rw [h]
    rfl

/-- Witness for C2 on the fixture graph: the swap removes the old node. -/
theorem replaceNode_best_effort_relink_witness :
    ∃ n1 : Node,
      (replaceNode wrGraph wrOld "B" wrCreate (fun _ => true) (fun _ => false)).newNode
        = some n1 ∧
      wrOld ∉ (replaceNode wrGraph wrOld "B" wrCreate
        (fun _ => true) (fun _ => false)).graph.nodes := by
  obtain ⟨n1, h1, -, -, -, -, -, hrm, -, -⟩ :=
    replaceNode_best_effort_relink wrGraph wrOld "B" wrCreate
      (fun _ => true) (fun _ => false) wrNew0 rfl
      (by decide) (by decide) (by decide)
  exact ⟨n1, h1, hrm⟩

theorem normalizePos_posToVal (p : ℚ × ℚ) : normalizePos (posToVal p) = p := by
  obtain ⟨x, y⟩ := p
  rfl

/-- C4: the swap is in place: the new node's position is the old node's
position normalized (array and object forms accepted, missing or non-finite
coordinates forced to 0), and when both old and new node carry a size the
old size is copied over. -/
theorem replaceNode_in_place
    (g : Graph) (oldNode : Node) (newType : String)
    (create : String → CreateOutcome)
    (inFails : InSnap → Bool) (outFails : OutSnap → Bool)
    (newNode0 : Node) (h : safeCreateNode create newType = some newNode0) :
    (∃ n1 : Node,
      (replaceNode g oldNode newType create inFails outFails).newNode = some n1 ∧
      n1.pos = posToVal (normalizePos oldNode.pos) ∧
      (∀ s ns, oldNode.size = some s → newNode0.size = some ns →
        n1.size = some s)) ∧
    (∀ x y : ℚ, normalizePos (.arr [.num (.fin x), .num (.fin y)]) = (x, y)) ∧
    (∀ (x y i0 i1 : JSVal) (qx qy : ℚ), x = .num (.fin qx) → y = .num (.fin qy) →
      normalizePos (.obj x y i0 i1) = (qx, qy)) ∧
    (∀ v w : JSVal, isFiniteNum (toNumber v) = false →
      (normalizePos (.arr [v, w])).1 = 0) ∧
    (∀ v w : JSVal, isFiniteNum (toNumber w) = false →
      (normalizePos (.arr [v, w])).2 = 0) ∧
    normalizePos (.arr []) = (0, 0) := by
  refine ⟨?_, ?_, ?_, ?_, ?_, rfl⟩
  · have e : replaceNode g oldNode newType create inFails outFails =
        (let newNode1 : Node := { newNode0 with
          pos := posToVal (normalizePos (posToVal (normalizePos oldNode.pos))),
          size := match oldNode.size, newNode0.size with
                  | some s, some _ => some s
                  | _, ns => ns }
        { graph := (g.add newNode1).removeNode oldNode,
          attemptedInputs :=
            reconnectInputs (g.add newNode1) newNode1 (snapshotInputs g oldNode) inFails,
          attemptedOutputs :=
            reconnectOutputs (g.add newNode1) newNode1 (snapshotOutputs g oldNode) outFails,
          newNode := some newNode1 }) := by
      unfold replaceNode
      rw [h]
    refine ⟨_, by rw [e], ?_, ?_⟩
    · show posToVal (normalizePos (posToVal (normalizePos oldNode.pos)))
        = posToVal (normalizePos oldNode.pos)
      rw [normalizePos_posToVal]
    · intro s ns hs hns
      show (match oldNode.size, newNode0.size with
            | some s, some _ => some s
            | _, ns => ns) = some s
      rw [hs, hns]
  · intro x y
    rfl
  · rintro x y i0 i1 qx qy rfl rfl
    rfl
  · intro v w hv
    cases hn : toNumber v with
    | fin q => rw [hn] at hv; simp [isFiniteNum] at hv
    | nan => simp [normalizePos, getIndex, hn]
    | posInf => simp [normalizePos, getIndex, hn]
    | negInf => simp [normalizePos, getIndex, hn]
  · intro v w hw
    cases hn : toNumber w with
    | fin q => rw [hn] at hw; simp [isFiniteNum] at hw
    | nan => simp [normalizePos, getIndex, hn]
    | posInf => simp [normalizePos, getIndex, hn]
    | negInf => simp [normalizePos, getIndex, hn]

/-- Witness for C4: the fixture swap lands the new node on the old node's
normalized position. -/
theorem replaceNode_in_place_witness :
    ∃ n1 : Node,
      (replaceNode wrGraph wrOld "B" wrCreate (fun _ => false) (fun _ => false)).newNode
        = some n1 ∧
      n1.pos = posToVal (normalizePos wrOld.pos) := by
  obtain ⟨⟨n1, h1, h2, -⟩, -⟩ :=
    replaceNode_in_place wrGraph wrOld "B" wrCreate
      (fun _ => false) (fun _ => false) wrNew0 rfl
  exact ⟨n1, h1, h2⟩

theorem head?_dropWhile_isJsSpace :
    ∀ (l : List Char) (c : Char),
      (l.dropWhile isJsSpace).head? = some c → isJsSpace c = false
  | [], c => by simp
  | a :: t, c => by
    rw [List.dropWhile_cons]
    split_ifs with h
    · exact head?_dropWhile_isJsSpace t c
    · intro hc
      simp only [List.head?_cons, Option.some.injEq] at hc
      subst hc
      simpa using h

theorem dropWhile_eq_self_of_head (l : List Char)
    (h : ∀ c, l.head? = some c → isJsSpace c = false) :
    l.dropWhile isJsSpace = l := by
  cases l with
  | nil => rfl
  | cons a t =>
    rw [List.dropWhile_cons, if_neg]
    simp [h a rfl]

theorem trimList_idem (l : List Char) : trimList (trimList l) = trimList l := by
  have h1 : (trimList l).dropWhile isJsSpace = trimList l := by
    apply dropWhile_eq_self_of_head
    intro c hc
    unfold trimList at hc
    rw [List.head?_reverse] at hc
    obtain ⟨t, ht⟩ :=
      List.dropWhile_suffix (l := (l.dropWhile isJsSpace).reverse) isJsSpace
    have hbne : (l.dropWhile isJsSpace).reverse.dropWhile isJsSpace ≠ [] := by
      intro h0
      rw [h0] at hc
      simp at hc
    have h2 := List.getLast?_append_of_ne_nil t hbne
    rw [ht, List.getLast?_reverse] at h2
    exact head?_dropWhile_isJsSpace l c (h2.trans hc)
  show (((trimList l).dropWhile isJsSpace).reverse.dropWhile isJsSpace).reverse
      = trimList l
  rw [h1]
  show ((trimList l).reverse.dropWhile isJsSpace).reverse = trimList l
  unfold trimList
  rw [List.reverse_reverse, List.dropWhile_idempotent]

theorem jsTrim_idem (s : String) : jsTrim (jsTrim s) = jsTrim s :=
  congrArg String.mk (trimList_idem s.data)

theorem foldlM_nlStep_ok :
    ∀ (src : List LVal) (acc : List String × List String),
      (∀ v ∈ src, (lvalToString v).isSome = true) →
      src.foldlM nlStep acc = Except.ok (src.foldl nlStepP acc)
  | [], _, _ => rfl
  | v :: t, acc, h => by
    rw [List.foldlM_cons, List.foldl_cons]
    obtain ⟨val, hval⟩ := Option.isSome_iff_exists.1 (h v (by simp))
    have hstep : nlStep acc v = Except.ok (nlStepP acc v) := by
      unfold nlStep nlStepP
      rw [hval]
      show (if jsTrim val = "" then Except.ok acc
            else if jsTrim val ∈ acc.2 then Except.ok acc
            else Except.ok (acc.1 ++ [jsTrim val], jsTrim val :: acc.2))
          = Except.ok (if jsTrim val = "" then acc
            else if jsTrim val ∈ acc.2 then acc
            else (acc.1 ++ [jsTrim val], jsTrim val :: acc.2))
      split_ifs <;> rfl
    rw [hstep]
    show t.foldlM nlStep (nlStepP acc v) = Except.ok (t.foldl nlStepP (nlStepP acc v))
    exact foldlM_nlStep_ok t _ (fun w hw => h w (by simp [hw]))

theorem nlFold_inv :
    ∀ (src : List LVal) (out seen : List String),
      (∀ s, s ∈ out ↔ s ∈ seen) → out.Nodup →
      (∀ s ∈ out, s ≠ "" ∧ jsTrim s = s) →
      (∃ rest, out = "Any" :: rest) →
      ((∀ s, s ∈ (src.foldl nlStepP (out, seen)).1 ↔
          s ∈ (src.foldl nlStepP (out, seen)).2) ∧
       (src.foldl nlStepP (out, seen)).1.Nodup ∧
       (∀ s ∈ (src.foldl nlStepP (out, seen)).1, s ≠ "" ∧ jsTrim s = s) ∧
       (∃ rest, (src.foldl nlStepP (out, seen)).1 = "Any" :: rest))
  | [], out, seen, hmem, hnd, hP, hhd => ⟨hmem, hnd, hP, hhd⟩
  | v :: t, out, seen, hmem, hnd, hP, hhd => by
    rw [List.foldl_cons]
    by_cases he : jsTrim ((lvalToString v).getD "") = ""
    · rw [show nlStepP (out, seen) v = (out, seen) by unfold nlStepP; rw [if_pos he]]
      exact nlFold_inv t out seen hmem hnd hP hhd
    · by_cases hs : jsTrim ((lvalToString v).getD "") ∈ seen
      · rw [show nlStepP (out, seen) v = (out, seen) by
          unfold nlStepP; rw [if_neg he, if_pos hs]]
        exact nlFold_inv t out seen hmem hnd hP hhd
      · rw [show nlStepP (out, seen) v
            = (out ++ [jsTrim ((lvalToString v).getD "")],
               jsTrim ((lvalToString v).getD "") :: seen) by
          unfold nlStepP; rw [if_neg he, if_neg hs]]
        refine nlFold_inv t _ _ ?_ ?_ ?_ ?_
        · intro s
          simp only [List.mem_append, List.mem_singleton, List.mem_cons]
          rw [hmem s]
          tauto
        · rw [List.nodup_append]
          refine ⟨hnd, List.nodup_singleton _, ?_⟩
          intro s hs1 hs2
          simp only [List.mem_singleton] at hs2
          exact hs ((hmem _).1 (hs2 ▸ hs1))
        · intro s hsmem
          rcases List.mem_append.1 hsmem with h | h
          · exact hP s h
          · simp only [List.mem_singleton] at h
            subst h
            exact ⟨he, jsTrim_idem _⟩
        · obtain ⟨rest, hrest⟩ := hhd
          exact ⟨rest ++ [jsTrim ((lvalToString v).getD "")], by rw [hrest]; rfl⟩

theorem nlFold_replay :
    ∀ (rest done seen : List String),
      (∀ s, s ∈ done ↔ s ∈ seen) →
      (done ++ rest).Nodup →
      (∀ s ∈ rest, s ≠ "" ∧ jsTrim s = s) →
      ((rest.map LVal.str).foldl nlStepP (done, seen)).1 = done ++ rest
  | [], done, seen, _, _, _ => by simp
  | b :: t, done, seen, hmem, hnd, hP => by
    rw [List.map_cons, List.foldl_cons]
    obtain ⟨hbne, hbtrim⟩ := hP b (by simp)
    have hbdone : b ∉ done := by
      intro hb
      have : ¬ List.Disjoint done (b :: t) := fun hd => (hd hb (by simp)).elim
      exact this ((List.nodup_append.1 hnd).2.2)
    have hstep : nlStepP (done, seen) (LVal.str b) = (done ++ [b], b :: seen) := by
      simp only [nlStepP, lvalToString, Option.getD_some, hbtrim]
      rw [if_neg hbne, if_neg (fun hb => hbdone ((hmem b).2 hb))]
    rw [hstep]
    have := nlFold_replay t (done ++ [b]) (b :: seen)
      (by
        intro s
        simp only [List.mem_append, List.mem_singleton, List.mem_cons]
        rw [hmem s]
        tauto)
      (by
        have : done ++ [b] ++ t = done ++ b :: t := by
          rw [List.append_assoc]
          rfl
        rw [this]
        exact hnd)
      (fun s hs => hP s (by simp [hs]))
    rw [this, List.append_assoc]
    rfl

/-- C9, as stated, is false on the code: an array element whose `name`
member is a truthy non-string (e.g. `{name: 42}`) makes the source's
`(val || "").trim()` throw a `TypeError`, so `normalizeListWithAny` returns
no list at all — in particular not a list headed by `"Any"`. -/
theorem normalizeListWithAny_claim_counterexample :
    normalizeListWithAny (.arr [LVal.obj JSProp.truthyOther "42"])
      = Except.error () := by
  rfl

/-- C9 (amended): on any input none of whose elements carries a truthy
non-string `name` member — the one case where the source throws instead of
returning — `normalizeListWithAny` returns a list headed by `"Any"`, whose
elements are non-empty trimmed strings without duplicates, and feeding that
output back in (as strings) returns it unchanged. -/
theorem normalizeListWithAny_spec (values : NLInput)
    (hok : ∀ v ∈ nlSrc values, (lvalToString v).isSome = true) :
    ∃ out : List String,
      normalizeListWithAny values = Except.ok out ∧
      (∃ rest, out = "Any" :: rest) ∧
      (∀ s ∈ out, s ≠ "" ∧ jsTrim s = s) ∧
      out.Nodup ∧
      normalizeListWithAny (.arr (out.map LVal.str)) = Except.ok out := by
  obtain ⟨hmem, hnd, hP, hhd⟩ := nlFold_inv (nlSrc values) ["Any"] ["Any"]
    (fun s => Iff.rfl) (List.nodup_singleton _)
    (by
      intro s hs
      simp only [List.mem_singleton] at hs
      subst hs
      exact ⟨by decide, by decide⟩)
    ⟨[], rfl⟩
  refine ⟨((nlSrc values).foldl nlStepP (["Any"], ["Any"])).1, ?_, hhd, hP, hnd, ?_⟩
  · show (((nlSrc values).foldlM nlStep (["Any"], ["Any"])).map Prod.fst) = _
    rw [foldlM_nlStep_ok (nlSrc values) (["Any"], ["Any"]) hok]
    rfl
  · obtain ⟨rest, hrest⟩ := hhd
    have hok2 : ∀ v ∈ (((nlSrc values).foldl nlStepP (["Any"], ["Any"])).1).map LVal.str,
        (lvalToString v).isSome = true := by
      intro v hv
      obtain ⟨s, -, rfl⟩ := List.mem_map.1 hv
      rfl
    show ((((((nlSrc values).foldl nlStepP (["Any"], ["Any"])).1).map LVal.str).foldlM
        nlStep (["Any"], ["Any"])).map Prod.fst)
      = Except.ok (((nlSrc values).foldl nlStepP (["Any"], ["Any"])).1)
    rw [foldlM_nlStep_ok _ _ hok2]
    show Except.ok ((((((nlSrc values).foldl nlStepP (["Any"], ["Any"])).1).map
        LVal.str).foldl nlStepP (["Any"], ["Any"])).1)
      = Except.ok (((nlSrc values).foldl nlStepP (["Any"], ["Any"])).1)
    refine congrArg Except.ok ?_
    rw [hrest, List.map_cons, List.foldl_cons]
    have hstep : nlStepP (["Any"], ["Any"]) (LVal.str "Any") = (["Any"], ["Any"]) := by
      decide
    rw [hstep]
    have hrepl := nlFold_replay rest ["Any"] ["Any"] (fun s => Iff.rfl)
      (by rw [show ["Any"] ++ rest = "Any" :: rest from rfl, ← hrest]; exact hnd)
      (fun s hs => hP s (by rw [hrest]; simp [hs]))
    rw [hrepl]
    rfl

/-- Witness for C9 at a concrete throw-free mixed input. -/
theorem normalizeListWithAny_spec_witness :
    ∃ out : List String,
      normalizeListWithAny
        (.arr [.str " b ", .obj (JSProp.str "a") "x", .str "b"])
        = Except.ok out ∧ out.Nodup := by
  obtain ⟨out, h1, -, -, h4, -⟩ :=
    normalizeListWithAny_spec
      (.arr [.str " b ", .obj (JSProp.str "a") "x", .str "b"]) (by decide)
  exact ⟨out, h1, h4⟩

/-- C10: `getPreviewSize` always lands in `[128, 2048]`; a missing or
unparseable stored value gives 256, a parsed value is clamped. -/
theorem getPreviewSize_spec (raw : Option String) :
    128 ≤ getPreviewSize raw ∧ getPreviewSize raw ≤ 2048 ∧
    ((raw = none ∨ parseIntJS (raw.getD "") = none) → getPreviewSize raw = 256) ∧
    (∀ r n, raw = some r → parseIntJS r = some n →
      getPreviewSize raw = clamp n 128 2048) := by
  have hb : ∀ m : Int, 128 ≤ clamp m 128 2048 ∧ clamp m 128 2048 ≤ 2048 :=
    fun m => ⟨le_max_left _ _, max_le (by norm_num) (min_le_left _ _)⟩
  refine ⟨?_, ?_, ?_, ?_⟩
  · unfold getPreviewSize
    rcases hp : parseIntJS (match raw with
      | none => "256"
      | some r => if r = "" then "256" else r) with - | n
    · norm_num
    · exact (hb n).1
  · unfold getPreviewSize
    rcases hp : parseIntJS (match raw with
      | none => "256"
      | some r => if r = "" then "256" else r) with - | n
    · norm_num
    · exact (hb n).2
  · rintro (rfl | hnone)
    · decide
    · rcases raw with - | r
      · decide
      · simp only [Option.getD] at hnone
        by_cases hr : r = ""
        · subst hr
          decide
        · unfold getPreviewSize
          rw [show (match some r with
              | none => "256"
              | some r => if r = "" then "256" else r) = r from by
            show (if r = "" then "256" else r) = r
            rw [if_neg hr]]
          rw [hnone]
  · rintro r n rfl hsome
    have hr : r ≠ "" := by
      intro h0
      subst h0
      rw [show parseIntJS "" = none from by decide] at hsome
      cases hsome
    unfold getPreviewSize
    rw [show (match some r with
        | none => "256"
        | some r => if r = "" then "256" else r) = r from by
      show (if r = "" then "256" else r) = r
      rw [if_neg hr]]
    rw [hsome]

/-- Witness for C10: a stored 4096 is clamped. -/
theorem getPreviewSize_spec_witness :
    getPreviewSize (some "4096") = clamp 4096 128 2048 :=
  (getPreviewSize_spec (some "4096")).2.2.2 "4096" 4096 rfl (by decide)

theorem enumFrom_pairwise_fst :
    ∀ (l : List TabItem) (i : Nat),
      (l.enumFrom i).Pairwise (fun p q => p.1 < q.1)
  | [], _ => List.Pairwise.nil
  | a :: t, i => by
    rw [List.enumFrom_cons]
    refine List.pairwise_cons.2 ⟨?_, enumFrom_pairwise_fst t (i + 1)⟩
    intro q hq
    have := List.le_fst_of_mem_enumFrom hq
    omega

theorem zip_entries_el :
    ∀ (l : List TabItem) (i : Nat) (q : SortEntry × TabItem),
      q ∈ ((l.enumFrom i).map entryOf).zip l → q.1.el = q.2
  | [], _, q => by simp
  | a :: t, i, q => by
    rw [List.enumFrom_cons, List.map_cons, List.zip_cons_cons, List.mem_cons]
    rintro (rfl | hq)
    · rfl
    · exact zip_entries_el t (i + 1) q hq

theorem entries_map_el (items : List TabItem) :
    (items.enum.map entryOf).map SortEntry.el = items := by
  rw [List.map_map]
  exact List.enum_map_snd items

theorem entryLE_total (lcmp : String → String → Ordering)
    (hswap : ∀ a b, lcmp b a = (lcmp a b).swap) (a b : SortEntry) :
    (entryLE lcmp a b || entryLE lcmp b a) = true := by
  unfold entryLE
  cases h : lcmp a.label b.label with
  | lt => simp [h]
  | eq =>
    have h2 : lcmp b.label a.label = Ordering.eq := by
      rw [hswap a.label b.label, h]; rfl
    rw [h2]
    rcases Nat.le_total a.idx b.idx with hle | hle <;> simp [hle]
  | gt =>
    have h2 : lcmp b.label a.label = Ordering.lt := by
      rw [hswap a.label b.label, h]; rfl
    simp [h, h2]

theorem entryLE_trans (lcmp : String → String → Ordering)
    (hswap : ∀ a b, lcmp b a = (lcmp a b).swap)
    (htrans : ∀ a b c, (lcmp a b).isLE = true → (lcmp b c).isLE = true →
      (lcmp a c).isLE = true)
    (hcongr : ∀ a b, lcmp a b = Ordering.eq → ∀ d, lcmp a d = lcmp b d)
    (a b c : SortEntry) (hab : entryLE lcmp a b = true)
    (hbc : entryLE lcmp b c = true) : entryLE lcmp a c = true := by
  unfold entryLE at hab hbc ⊢
  cases h1 : lcmp a.label b.label with
  | gt => rw [h1] at hab; cases hab
  | lt =>
    cases h2 : lcmp b.label c.label with
    | gt => rw [h2] at hbc; cases hbc
    | lt =>
      have hle : (lcmp a.label c.label).isLE = true :=
        htrans _ _ _ (by rw [h1]; rfl) (by rw [h2]; rfl)
      cases h3 : lcmp a.label c.label with
      | lt => rfl
      | gt => rw [h3] at hle; simp [Ordering.isLE] at hle
      | eq =>
        have e1 := hcongr _ _ h3 b.label
        rw [h1] at e1
        have e2 : lcmp c.label b.label = Ordering.gt := by
          rw [hswap b.label c.label, h2]; rfl
        rw [← e1] at e2
        cases e2
    | eq =>
      have e1 := hcongr _ _ h2 a.label
      have e2 : lcmp b.label a.label = Ordering.gt := by
        rw [hswap a.label b.label, h1]; rfl
      have e3 : lcmp c.label a.label = Ordering.gt := by rw [← e1, e2]
      have e4 : lcmp a.label c.label = Ordering.lt := by
        rw [hswap c.label a.label, e3]; rfl
      rw [e4]
  | eq =>
    rw [h1] at hab
    cases h2 : lcmp b.label c.label with
    | gt => rw [h2] at hbc; cases hbc
    | lt =>
      have e1 := hcongr _ _ h1 c.label
      rw [h2] at e1
      rw [e1]
    | eq =>
      rw [h2] at hbc
      have e1 := hcongr _ _ h1 c.label
      rw [h2] at e1
      rw [e1]
      simp only [decide_eq_true_eq] at hab hbc ⊢
      omega

theorem entries_pairwise_of_labels (lcmp : String → String → Ordering)
    (items : List TabItem)
    (h : (items.map (fun n => labelKey n.raw)).Pairwise
      (fun x y => (lcmp x y).isLE = true)) :
    (items.enum.map entryOf).Pairwise (fun a b => entryLE lcmp a b = true) := by
  have hidx : items.enum.Pairwise (fun p q => p.1 < q.1) :=
    enumFrom_pairwise_fst items 0
  have hlab0 : items.Pairwise
      (fun x y => (lcmp (labelKey x.raw) (labelKey y.raw)).isLE = true) :=
    List.pairwise_map.1 h
  have hlab : items.enum.Pairwise
      (fun p q => (lcmp (labelKey p.2.raw) (labelKey q.2.raw)).isLE = true) := by
    rw [← List.enum_map_snd items] at hlab0
    exact List.pairwise_map.1 hlab0
  refine List.pairwise_map.2 ?_
  refine (hlab.and hidx).imp ?_
  rintro p q ⟨hl, hi⟩
  show entryLE lcmp (entryOf p) (entryOf q) = true
  unfold entryLE entryOf
  simp only []
  cases hc : lcmp (labelKey p.2.raw) (labelKey q.2.raw) with
  | lt => rfl
  | eq => simpa using Nat.le_of_lt hi
  | gt => rw [hc] at hl; cases hl

/-- C7: `sortOneContainer` returns a permutation of the items; when it
reports a reorder the result is ascending in the normalized labels under the
locale comparison with ties broken by original index; an unchanged label
signature or an already-sorted item list yields `false` with the order
untouched. -/
theorem sortOneContainer_spec (lcmp : String → String → Ordering)
    (hswap : ∀ a b, lcmp b a = (lcmp a b).swap)
    (htrans : ∀ a b c, (lcmp a b).isLE = true → (lcmp b c).isLE = true →
      (lcmp a c).isLE = true)
    (hcongr : ∀ a b, lcmp a b = Ordering.eq → ∀ d, lcmp a d = lcmp b d)
    (lastSig : Option String) (items : List TabItem) :
    ((sortOneContainer lcmp lastSig items).2.1 ~ items) ∧
    ((sortOneContainer lcmp lastSig items).1 = true →
      ∃ es : List SortEntry,
        es ~ items.enum.map entryOf ∧
        es.Pairwise (fun a b => entryLE lcmp a b = true) ∧
        (sortOneContainer lcmp lastSig items).2.1 = es.map SortEntry.el) ∧
    (lastSig = some (String.intercalate "|" (items.map (fun n => labelKey n.raw))) →
      sortOneContainer lcmp lastSig items = (false, items, lastSig)) ∧
    ((items.map (fun n => labelKey n.raw)).Pairwise
        (fun x y => (lcmp x y).isLE = true) →
      (sortOneContainer lcmp lastSig items).1 = false ∧
      (sortOneContainer lcmp lastSig items).2.1 = items) := by
  by_cases h2 : items.length < 2
  · have e : sortOneContainer lcmp lastSig items = (false, items, lastSig) := by
      unfold sortOneContainer
      rw [if_pos h2]
    rw [e]
    exact ⟨List.Perm.refl items, fun h => (by cases h),
      fun _ => rfl, fun _ => ⟨rfl, rfl⟩⟩
  · by_cases hsig : lastSig
        = some (String.intercalate "|" (items.map (fun n => labelKey n.raw)))
    · have e : sortOneContainer lcmp lastSig items = (false, items, lastSig) := by
        unfold sortOneContainer
        rw [if_neg h2]
        simp only []
        rw [if_pos hsig]
      rw [e]
      exact ⟨List.Perm.refl items, fun h => (by cases h),
        fun _ => rfl, fun _ => ⟨rfl, rfl⟩⟩
    · by_cases hch : (((items.enum.map entryOf).mergeSort (entryLE lcmp)).zip
          items).any (fun q => q.1.el != q.2) = true
      · have e : sortOneContainer lcmp lastSig items =
            (true,
             ((items.enum.map entryOf).mergeSort (entryLE lcmp)).map SortEntry.el,
             some (String.intercalate "|"
               (((items.enum.map entryOf).mergeSort (entryLE lcmp)).map
                 (fun e => e.label)))) := by
          unfold sortOneContainer
          rw [if_neg h2]
          simp only []
          rw [if_neg hsig]
          rw [if_neg (not_not_intro hch)]
        have hperm : ((items.enum.map entryOf).mergeSort (entryLE lcmp)).map
            SortEntry.el ~ items := by
          have h1 : (items.enum.map entryOf).mergeSort (entryLE lcmp)
              ~ items.enum.map entryOf := List.mergeSort_perm _ _
          calc ((items.enum.map entryOf).mergeSort (entryLE lcmp)).map SortEntry.el
              ~ (items.enum.map entryOf).map SortEntry.el := h1.map SortEntry.el
            _ = items := entries_map_el items
        refine ⟨by rw [e]; exact hperm, ?_, ?_, ?_⟩
        · intro _
          refine ⟨(items.enum.map entryOf).mergeSort (entryLE lcmp),
            List.mergeSort_perm _ _,
            List.sorted_mergeSort
              (entryLE_trans lcmp hswap htrans hcongr)
              (entryLE_total lcmp hswap) _, ?_⟩
          rw [e]
        · intro hs
          exact absurd hs hsig
        · intro hpw
          have hsorted : (items.enum.map entryOf).mergeSort (entryLE lcmp)
              = items.enum.map entryOf :=
            List.mergeSort_of_sorted (entries_pairwise_of_labels lcmp items hpw)
          have : (((items.enum.map entryOf).mergeSort (entryLE lcmp)).zip
              items).any (fun q => q.1.el != q.2) = false := by
            rw [hsorted]
            rw [List.any_eq_false]
            intro q hq
            simp only [bne_iff_ne, ne_eq, decide_eq_true_eq, not_not]
            exact zip_entries_el items 0 q hq
          rw [this] at hch
          cases hch
      · have e : sortOneContainer lcmp lastSig items =
            (false, items,
             some (String.intercalate "|" (items.map (fun n => labelKey n.raw)))) := by
          unfold sortOneContainer
          rw [if_neg h2]
          simp only []
          rw [if_neg hsig]
          rw [if_pos hch]
        rw [e]
        exact ⟨List.Perm.refl items, fun h => (by cases h),
          fun hs => absurd hs hsig, fun _ => ⟨rfl, rfl⟩⟩

/-- Witness for C7: two out-of-order tabs get permuted. -/
theorem sortOneContainer_spec_witness :
    (sortOneContainer stringCmp none
      [{ eid := 1, raw := "b" }, { eid := 2, raw := "a" }]).2.1 ~
      [{ eid := 1, raw := "b" }, { eid := 2, raw := "a" }] :=
  (sortOneContainer_spec stringCmp stringCmp_swap stringCmp_isLE_trans
    stringCmp_congr none [{ eid := 1, raw := "b" }, { eid := 2, raw := "a" }]).1

end ToolkitPlus
